import Mathlib

/-!
Shallow embedding of the blockchain core in `src/blockchain.py`
(JayKim0920/BlockchainAssignment2).

Conventions of the embedding:

* Python `int` is modelled as `Int`; where the source writes a
  non-negative loop counter (fuel for the unbounded proof-of-work loop)
  we use `Nat` fuel and return `Option`, so `mine` returning `some` in
  the model corresponds exactly to the Python loop terminating.
* Python `float` timestamps are modelled as `Int`: no claim depends on
  fractional time, only on the value being part of the hashed content.
* `json.dumps(obj, sort_keys=True, ensure_ascii=False,
  separators=(",", ":"))` is modelled by `serialize ∘ canon` over a
  `Json` value: `canon` sorts every object's fields by key (Python's
  `sort_keys=True`) and `serialize` prints with `","`/`":"` separators
  and JSON string escaping.
* SHA-256 itself is replaced by the deterministic stand-in
  `hexOfString`, which hex-encodes the serialized text byte by byte.
  The claims under verification depend only on the digest being a
  deterministic function of the canonical serialization, consisting of
  hex characters, and being longer than any string embedded in the
  hashed content (the model's surrogate for collision resistance: a
  transaction id can never coincide with one of the transaction's own
  input ids).
* Python dicts used as UTXO maps are modelled as functions
  `UtxoKey → Option UtxoEntry`; `dict.pop`/assignment become pointwise
  updates, and `_clone_utxo` (a deep copy of an immutable-record map)
  becomes the identity.
* The persistence layer (`save_to_file`/`load_from_file`) is out of
  scope of every claim and is not modelled; `add_new_transaction` and
  `mine` therefore return the new in-memory state instead of writing it
  to disk.
* Failure reason strings are kept verbatim except that the key
  interpolated into the `missing utxo` f-string is dropped; no claim
  depends on the text of a reason.
-/

namespace BA

set_option maxRecDepth 4000000

/-- JSON values, the shapes fed to `sha256_json` by the source. -/
inductive Json where
| null : Json
| str (s : String) : Json
| num (n : Int) : Json
| arr (xs : List Json) : Json
| obj (fields : List (String × Json)) : Json

/-- JSON string escaping as performed by `json.dumps` (with
`ensure_ascii=False`) for the characters that occur in this program.
Serialized text is kept as a character list so that evaluation stays
lazy in the tail. -/
def escapeChar (c : Char) : List Char :=
  if c = '"' then ['\\', '"']
  else if c = '\\' then ['\\', '\\']
  else if c = '\n' then ['\\', 'n']
  else if c = '\t' then ['\\', 't']
  else if c = '\r' then ['\\', 'r']
  else [c]

def escList : List Char → List Char
| [] => []
| c :: cs => escapeChar c ++ escList cs

/-- A JSON string literal: quotes around the escaped text. -/
def quoteStr (s : String) : List Char := '"' :: (escList s.data ++ ['"'])

/-- Lexicographic comparison of character sequences by code point, the
order Python's `sorted` uses on `str` keys. -/
def charsLe : List Char → List Char → Bool
| [], _ => true
| _ :: _, [] => false
| a :: as, b :: bs =>
  if a < b then true
  else if b < a then false
  else charsLe as bs

/-- Ordering of object fields by key, as used by `sort_keys=True`. -/
def fieldLE (p q : String × Json) : Prop := charsLe p.1.data q.1.data = true

instance : DecidableRel fieldLE :=
  fun p q => inferInstanceAs (Decidable (charsLe p.1.data q.1.data = true))

theorem charsLe_total : ∀ as bs : List Char, charsLe as bs = true ∨ charsLe bs as = true
| [], _ => Or.inl rfl
| _ :: _, [] => Or.inr rfl
| a :: as, b :: bs => by
  rcases lt_trichotomy a b with h | h | h
  · exact Or.inl (by simp [charsLe, h])
  · subst h
    rcases charsLe_total as bs with h2 | h2
    · exact Or.inl (by simp [charsLe, h2])
    · exact Or.inr (by simp [charsLe, h2])
  · exact Or.inr (by simp [charsLe, h])

theorem charsLe_trans : ∀ as bs cs : List Char,
    charsLe as bs = true → charsLe bs cs = true → charsLe as cs = true
| [], _, _ => by intro _ _; rfl
| a :: as, [], _ => by intro h _; simp [charsLe] at h
| _ :: _, _ :: _, [] => by intro _ h; simp [charsLe] at h
| a :: as, b :: bs, c :: cs => by
  intro h1 h2
  rcases lt_trichotomy a b with hab | hab | hab
  · rcases lt_trichotomy b c with hbc | hbc | hbc
    · simp [charsLe, lt_trans hab hbc]
    · subst hbc; simp [charsLe, hab]
    · simp [charsLe, hbc, asymm hbc] at h2
  · subst hab
    rcases lt_trichotomy a c with hac | hac | hac
    · simp [charsLe, hac]
    · subst hac
      simp [charsLe, lt_irrefl] at h1 h2 ⊢
      exact charsLe_trans as bs cs h1 h2
    · simp [charsLe, hac, asymm hac] at h2
  · simp [charsLe, hab, asymm hab] at h1

theorem charsLe_antisymm : ∀ as bs : List Char,
    charsLe as bs = true → charsLe bs as = true → as = bs
| [], [] => by intro _ _; rfl
| [], _ :: _ => by intro _ h; simp [charsLe] at h
| _ :: _, [] => by intro h _; simp [charsLe] at h
| a :: as, b :: bs => by
  intro h1 h2
  rcases lt_trichotomy a b with hab | hab | hab
  · simp [charsLe, hab, asymm hab] at h2
  · subst hab
    simp [charsLe, lt_irrefl] at h1 h2
    rw [charsLe_antisymm as bs h1 h2]
  · simp [charsLe, hab, asymm hab] at h1

instance : IsTotal (String × Json) fieldLE := ⟨fun a b => charsLe_total a.1.data b.1.data⟩

instance : IsTrans (String × Json) fieldLE :=
  ⟨fun a b c h1 h2 => charsLe_trans a.1.data b.1.data c.1.data h1 h2⟩

def sortFields (fs : List (String × Json)) : List (String × Json) :=
  List.insertionSort fieldLE fs

mutual
/-- Recursively sort all object keys: the canonical form produced by
`sort_keys=True`. -/
def canon : Json → Json
| .null => .null
| .str s => .str s
| .num n => .num n
| .arr xs => .arr (canonList xs)
| .obj fs => .obj (sortFields (canonFields fs))
termination_by structural j => j

def canonList : List Json → List Json
| [] => []
| x :: xs => canon x :: canonList xs
termination_by structural xs => xs

def canonFields : List (String × Json) → List (String × Json)
| [] => []
| (k, v) :: fs => (k, canon v) :: canonFields fs
termination_by structural fs => fs
end

mutual
/-- Compact JSON printing with separators `(",", ":")`, exactly the text
`json.dumps` produces once keys are already sorted. -/
def serialize : Json → List Char
| .null => ['n', 'u', 'l', 'l']
| .str s => quoteStr s
| .num n => (toString n).data
| .arr xs => '[' :: (serializeList xs ++ [']'])
| .obj fs => '\x7b' :: (serializeFields fs ++ ['\x7d'])
termination_by structural j => j

def serializeList : List Json → List Char
| [] => []
| [x] => serialize x
| x :: y :: xs => serialize x ++ (',' :: serializeList (y :: xs))
termination_by structural xs => xs

def serializeFields : List (String × Json) → List Char
| [] => []
| [(k, v)] => quoteStr k ++ (':' :: serialize v)
| (k, v) :: f :: fs =>
  quoteStr k ++ (':' :: serialize v) ++ (',' :: serializeFields (f :: fs))
termination_by structural fs => fs
end

/-- Two lowercase hex characters for one byte. -/
def hexByte (n : Nat) : List Char :=
  [Nat.digitChar (n / 16 % 16), Nat.digitChar (n % 16)]

def hexList : List Char → List Char
| [] => []
| c :: cs => hexByte (c.toNat % 256) ++ hexList cs

/-- Deterministic hex digest of a text, the model's stand-in for
`hashlib.sha256(s.encode()).hexdigest()`. -/
def hexOfString (s : String) : String := String.mk (hexList s.data)

/-- Model of `sha256_json`: hash of the canonical JSON representation. -/
def sha256_json (j : Json) : String := hexOfString (String.mk (serialize (canon j)))

/-- One entry of a transaction's `inputs` list:
`{"txid": str, "index": int, "address": str}`. -/
structure TxInput where
  txid : String
  index : Int
  address : String
deriving DecidableEq

/-- One entry of a transaction's `outputs` list:
`{"amount": int, "address": str}`. -/
structure TxOutput where
  amount : Int
  address : String
deriving DecidableEq

/-- The canonical dict form of a transaction as produced by
`Transaction.to_dict`: `{"txid", "inputs", "outputs"}`. -/
structure TxDict where
  txid : String
  inputs : List TxInput
  outputs : List TxOutput
deriving DecidableEq

def inputJson (i : TxInput) : Json :=
  .obj [("txid", .str i.txid), ("index", .num i.index), ("address", .str i.address)]

def outputJson (o : TxOutput) : Json :=
  .obj [("amount", .num o.amount), ("address", .str o.address)]

/-- The content hashed by `Transaction.compute_txid`:
`{"inputs": self.inputs, "outputs": self.outputs}`. -/
def txContentJson (inputs : List TxInput) (outputs : List TxOutput) : Json :=
  .obj [("inputs", .arr (inputs.map inputJson)),
        ("outputs", .arr (outputs.map outputJson))]

/-- Model of `Transaction.compute_txid`. -/
def compute_txid (inputs : List TxInput) (outputs : List TxOutput) : String :=
  sha256_json (txContentJson inputs outputs)

/-- A `Transaction` object; its `txid` attribute is always
`compute_txid` of its content (set once in `__init__`), so it is a
derived field here. -/
structure Transaction where
  inputs : List TxInput
  outputs : List TxOutput
deriving DecidableEq

def Transaction.txid (tx : Transaction) : String :=
  compute_txid tx.inputs tx.outputs

def Transaction.to_dict (tx : Transaction) : TxDict :=
  ⟨tx.txid, tx.inputs, tx.outputs⟩

/-- Rebuilding a `Transaction` from a stored dict, as the source does
with `Transaction(txd["inputs"], txd["outputs"])` (the stored `txid`
field is ignored and recomputed). -/
def Transaction.ofDict (d : TxDict) : Transaction := ⟨d.inputs, d.outputs⟩

/-- Model of `Transaction.coinbase`. -/
def Transaction.coinbase (miner_address : String) (amount : Int) (height : Int) : Transaction :=
  ⟨[⟨"COINBASE", height, "COINBASE"⟩], [⟨amount, miner_address⟩]⟩

/-- UTXO set key `(txid, index)`. -/
abbrev UtxoKey := String × Int

/-- UTXO set value `{"amount": int, "address": str}`. -/
structure UtxoEntry where
  amount : Int
  address : String
deriving DecidableEq

/-- A UTXO dictionary, modelled as a lookup function. -/
def UtxoView : Type := UtxoKey → Option UtxoEntry

/-- Model of `utxo_view.pop(key, None)`. -/
def popKey (v : UtxoView) (k : UtxoKey) : UtxoView :=
  fun k2 => if k2 = k then none else v k2

/-- Model of `utxo_view[key] = entry`. -/
def putKey (v : UtxoView) (k : UtxoKey) (e : UtxoEntry) : UtxoView :=
  fun k2 => if k2 = k then some e else v k2

/-- The empty dict `{}`. -/
def emptyView : UtxoView := fun _ => none

def inputKey (i : TxInput) : UtxoKey := (i.txid, i.index)

/-- The test `tx.inputs and tx.inputs[0].get("txid") == "COINBASE"`. -/
def isCoinbaseInput : List TxInput → Bool
| [] => false
| i :: _ => i.txid == "COINBASE"

/-- The input loop of `_validate_and_apply_to_utxo`: walks the inputs
carrying the `seen_inputs` set and the running `total_in`, and stops at
the first violated check. -/
def checkInputs (view : UtxoView) : List TxInput → List UtxoKey → Int → Except String Int
| [], _, total => .ok total
| i :: rest, seen, total =>
  let key := inputKey i
  if key ∈ seen then .error "double spend within tx"
  else match view key with
    | none => .error "missing utxo"
    | some u =>
      if u.address ≠ i.address then .error "ownership mismatch"
      else if u.amount ≤ 0 then .error "invalid utxo amount"
      else checkInputs view rest (key :: seen) (total + u.amount)

/-- The output loop of `_validate_and_apply_to_utxo`. -/
def checkOutputs : List TxOutput → Int → Except String Int
| [], total => .ok total
| o :: rest, total =>
  if o.amount ≤ 0 then .error "non-positive output"
  else checkOutputs rest (total + o.amount)

/-- Insertion of `enumerate(outputs)` at keys `(txid, idx)`, used both by the
apply phase of validation and by the coinbase/genesis seeding code. -/
def seedOutputs (txid : String) (outputs : List TxOutput) (v : UtxoView) : UtxoView :=
  outputs.enum.foldl (fun acc p => putKey acc (txid, (p.1 : Int)) ⟨p.2.amount, p.2.address⟩) v

/-- The apply phase: remove every input key, then add one entry per
output. -/
def applyTx (tx : Transaction) (view : UtxoView) : UtxoView :=
  let v1 := tx.inputs.foldl (fun acc i => popKey acc (inputKey i)) view
  seedOutputs tx.txid tx.outputs v1

/-- Model of `_validate_and_apply_to_utxo`: result flag, failure reason,
and the (possibly updated) view.  The Python function mutates
`utxo_view` in place only after all checks pass; here the untouched view
is returned on every failure path. -/
def validate_and_apply_to_utxo (tx : Transaction) (view : UtxoView) :
    (Bool × Option String) × UtxoView :=
  if isCoinbaseInput tx.inputs then ((false, some "coinbase not allowed in mempool"), view)
  else match checkInputs view tx.inputs [] 0 with
    | .error e => ((false, some e), view)
    | .ok total_in =>
      match checkOutputs tx.outputs 0 with
      | .error e => ((false, some e), view)
      | .ok total_out =>
        if total_in < total_out then ((false, some "outputs exceed inputs"), view)
        else ((true, none), applyTx tx view)

/-- A block; `hash` is `None` until the block has been mined. -/
structure Block where
  index : Int
  transactions : List TxDict
  timestamp : Int
  previous_hash : Option String
  nonce : Int
  hash : Option String
  difficulty : Int
deriving DecidableEq

def txDictJson (d : TxDict) : Json :=
  .obj [("txid", .str d.txid),
        ("inputs", .arr (d.inputs.map inputJson)),
        ("outputs", .arr (d.outputs.map outputJson))]

/-- The content hashed by `Block.compute_hash` (difficulty and the
cached hash are excluded). -/
def blockContentJson (b : Block) : Json :=
  .obj [("index", .num b.index),
        ("transactions", .arr (b.transactions.map txDictJson)),
        ("timestamp", .num b.timestamp),
        ("previous_hash", match b.previous_hash with | none => .null | some s => .str s),
        ("nonce", .num b.nonce)]

/-- Model of `Block.compute_hash`. -/
def Block.compute_hash (b : Block) : String := sha256_json (blockContentJson b)

/-- The target text `"0" * difficulty`. -/
def zeroTarget (d : Nat) : String := String.mk (List.replicate d '0')

/-- Python's `str.startswith` on the character sequence. -/
def strStartsWith (s t : String) : Bool := t.data.isPrefixOf s.data

/-- The body of the proof-of-work loop in `Block.mine`, trying nonces
`n, n+1, ...` with explicit fuel (the Python loop is unbounded; a `some`
result is a terminating run). -/
def mineFrom (b : Block) (target : String) : Int → Nat → Option Block
| _, 0 => none
| n, fuel + 1 =>
  let b2 := { b with nonce := n }
  let h := b2.compute_hash
  if strStartsWith h target then some { b2 with hash := some h }
  else mineFrom b target (n + 1) fuel

/-- Model of `Block.mine`: start at nonce 0 and search for a digest with
`difficulty` leading zeros. -/
def Block.mine (b : Block) (difficulty : Nat) (fuel : Nat) : Option Block :=
  mineFrom b (zeroTarget difficulty) 0 fuel

/-- The in-memory state of a `Blockchain` object (the persistence paths
are external collaborators and not modelled). -/
structure Blockchain where
  chain : List Block
  unconfirmed_transactions : List TxDict
  utxos : UtxoView
  difficulty : Nat
  block_reward : Int

/-- Model of `Blockchain.create_genesis_block` (the timestamp is taken
as an argument; `time.time()` is an external effect). -/
def create_genesis_block (bc : Blockchain) (miner_address : String) (ts : Int) (fuel : Nat) :
    Option Blockchain :=
  let coinbase := Transaction.coinbase miner_address bc.block_reward 0
  let genesis_block : Block :=
    { index := 0, transactions := [coinbase.to_dict], timestamp := ts,
      previous_hash := some "0", nonce := 0, hash := none,
      difficulty := (bc.difficulty : Int) }
  match genesis_block.mine bc.difficulty fuel with
  | none => none
  | some mined =>
    some { bc with chain := [mined],
                   utxos := seedOutputs coinbase.txid coinbase.outputs emptyView }

/-- The fold `add_new_transaction` performs over the existing mempool:
apply each pending transaction's effect to the cloned view, silently
skipping any that fails to validate. -/
def foldMempool (pending : List TxDict) (view : UtxoView) : UtxoView :=
  pending.foldl (fun v d => (validate_and_apply_to_utxo (Transaction.ofDict d) v).2) view

/-- A submitted transaction dict: `inputs`, `outputs`, and the optional
caller-asserted `txid` key. -/
structure TxSubmission where
  txid : Option String
  inputs : List TxInput
  outputs : List TxOutput

/-- Model of `Blockchain.add_new_transaction`; returns the reported
flag together with the new state (the mempool append happens only on
success). -/
def add_new_transaction (bc : Blockchain) (tx : TxSubmission) : Bool × Blockchain :=
  let tx_obj : Transaction := ⟨tx.inputs, tx.outputs⟩
  if (match tx.txid with
      | some t => t != tx_obj.txid
      | none => false) then
    (false, bc)
  else
    let temp_utxo := foldMempool bc.unconfirmed_transactions bc.utxos
    let r := validate_and_apply_to_utxo tx_obj temp_utxo
    if r.1.1 then
      (true, { bc with unconfirmed_transactions :=
                 bc.unconfirmed_transactions ++ [tx_obj.to_dict] })
    else (false, bc)

/-- The mempool loop of `Blockchain.mine`: validate each pending
transaction against the evolving working view, collecting the included
ones (in order) and the final view. -/
def mineLoop : List TxDict → UtxoView → List TxDict × UtxoView
| [], v => ([], v)
| d :: rest, v =>
  let r := validate_and_apply_to_utxo (Transaction.ofDict d) v
  let p := mineLoop rest r.2
  if r.1.1 then (d :: p.1, p.2) else (p.1, p.2)

/-- Model of `Blockchain.mine` (timestamp and proof-of-work fuel as
arguments); returns the new state and the new block's index. -/
def Blockchain.mine (bc : Blockchain) (miner_address : String) (ts : Int) (fuel : Nat) :
    Option (Blockchain × Int) :=
  let coinbase_tx := Transaction.coinbase miner_address bc.block_reward (bc.chain.length : Int)
  let temp0 := seedOutputs coinbase_tx.txid coinbase_tx.outputs bc.utxos
  let p := mineLoop bc.unconfirmed_transactions temp0
  let txs_to_include := coinbase_tx.to_dict :: p.1
  let last_hash : Option String :=
    match bc.chain.getLast? with
    | none => some "0"
    | some b => b.hash
  let new_block : Block :=
    { index := (bc.chain.length : Int), transactions := txs_to_include,
      timestamp := ts, previous_hash := last_hash, nonce := 0, hash := none,
      difficulty := (bc.difficulty : Int) }
  match new_block.mine bc.difficulty fuel with
  | none => none
  | some mined =>
    some ({ bc with
              chain := bc.chain ++ [mined],
              utxos := p.2,
              unconfirmed_transactions :=
                bc.unconfirmed_transactions.filter (fun t => decide (t ∉ p.1)) },
          mined.index)

/-- The per-block transaction replay inside `is_chain_valid`: coinbase
allowed only at position 0 (its outputs are folded in unverified), every
other transaction must validate. -/
def applyBlockTxs : List TxDict → Nat → UtxoView → Option UtxoView
| [], _, v => some v
| d :: rest, idx, v =>
  let tx := Transaction.ofDict d
  if isCoinbaseInput tx.inputs then
    if idx ≠ 0 then none
    else applyBlockTxs rest (idx + 1) (seedOutputs tx.txid tx.outputs v)
  else
    let r := validate_and_apply_to_utxo tx v
    if r.1.1 then applyBlockTxs rest (idx + 1) r.2 else none

/-- The walk over the non-genesis blocks inside `is_chain_valid`:
linkage, stored-hash freshness, proof-of-work at the chain's configured
difficulty, and transaction replay. -/
def chainWalk (diff : Nat) : Block → List Block → UtxoView → Bool
| _, [], _ => true
| prev, b :: rest, v =>
  if b.previous_hash != prev.hash then false
  else match b.hash with
    | none => false
    | some h =>
      if b.compute_hash != h then false
      else if ¬ strStartsWith h (zeroTarget diff) then false
      else match applyBlockTxs b.transactions 0 v with
        | none => false
        | some v2 => chainWalk diff b rest v2

/-- The genesis seeding inside `is_chain_valid`: if the genesis block
has transactions, the first one's outputs seed the replay view. -/
def genesisSeed (b : Block) (v : UtxoView) : UtxoView :=
  match b.transactions with
  | [] => v
  | d :: _ =>
    let coinbase := Transaction.ofDict d
    seedOutputs coinbase.txid coinbase.outputs v

/-- Model of `Blockchain.is_chain_valid`. -/
def Blockchain.is_chain_valid (bc : Blockchain) : Bool :=
  match bc.chain with
  | [] => true
  | g :: rest =>
    if g.previous_hash != some "0" then false
    else match g.hash with
      | none => false
      | some h =>
        if g.compute_hash != h then false
        else chainWalk bc.difficulty g rest (genesisSeed g emptyView)

/-! ### Helper lemmas about the validation loops -/

/-- Sum of the amounts of the UTXOs a transaction's inputs point at in a
given view (missing keys contribute 0; a successful validation has no
missing keys). -/
def sumConsumed (view : UtxoView) (ins : List TxInput) : Int :=
  (ins.map (fun i => match view (inputKey i) with
    | some u => u.amount
    | none => 0)).sum

/-- Sum of a transaction's output amounts. -/
def sumOutputs (outs : List TxOutput) : Int := (outs.map TxOutput.amount).sum

theorem checkInputs_ok (view : UtxoView) :
    ∀ (ins : List TxInput) (seen : List UtxoKey) (total tin : Int),
    checkInputs view ins seen total = .ok tin →
    (ins.map inputKey).Nodup ∧ (∀ k ∈ ins.map inputKey, k ∉ seen)
      ∧ (∀ i ∈ ins, ∃ u, view (inputKey i) = some u ∧ u.address = i.address ∧ 0 < u.amount)
      ∧ tin = total + sumConsumed view ins := by
  intro ins
  induction ins with
  | nil =>
    intro seen total tin h
    simp [checkInputs] at h
    simp [sumConsumed, h]
  | cons i rest ih =>
    intro seen total tin h
    simp only [checkInputs] at h
    split at h
    · exact absurd h (by simp)
    · rename_i hseen
      split at h
      · exact absurd h (by simp)
      · rename_i u hu
        split at h
        · exact absurd h (by simp)
        · rename_i haddr
          split at h
          · exact absurd h (by simp)
          · rename_i hamt
            obtain ⟨hnd, hns, hall, hsum⟩ := ih (inputKey i :: seen) (total + u.amount) tin h
            refine ⟨?_, ?_, ?_, ?_⟩
            · simp only [List.map_cons, List.nodup_cons]
              exact ⟨fun hmem => (hns _ hmem) (by simp), hnd⟩
            · intro k hk
              simp only [List.map_cons, List.mem_cons] at hk
              rcases hk with rfl | hk
              · exact hseen
              · intro hk2
                exact (hns _ hk) (by simp [hk2])
            · intro j hj
              rcases List.mem_cons.mp hj with rfl | hj
              · exact ⟨u, hu, not_not.mp haddr, by omega⟩
              · exact hall j hj
            · have hs : sumConsumed view (i :: rest) = u.amount + sumConsumed view rest := by
                simp [sumConsumed, hu]
              rw [hs]
              omega

theorem checkInputs_error_of_missing (view : UtxoView) :
    ∀ (ins : List TxInput) (seen : List UtxoKey) (total : Int),
    (∃ i ∈ ins, view (inputKey i) = none) →
    ∃ e, checkInputs view ins seen total = .error e := by
  intro ins
  induction ins with
  | nil => intro _ _ h; simp at h
  | cons i rest ih =>
    intro seen total h
    simp only [checkInputs]
    split
    · exact ⟨_, rfl⟩
    · split
      · exact ⟨_, rfl⟩
      · rename_i u hu
        split
        · exact ⟨_, rfl⟩
        · split
          · exact ⟨_, rfl⟩
          · apply ih
            obtain ⟨j, hj, hjv⟩ := h
            rcases List.mem_cons.mp hj with rfl | hj
            · rw [hu] at hjv; exact absurd hjv (by simp)
            · exact ⟨j, hj, hjv⟩

theorem checkOutputs_ok :
    ∀ (outs : List TxOutput) (total tout : Int),
    checkOutputs outs total = .ok tout →
    (∀ o ∈ outs, 0 < o.amount) ∧ tout = total + sumOutputs outs := by
  intro outs
  induction outs with
  | nil =>
    intro total tout h
    simp [checkOutputs] at h
    simp [sumOutputs, h]
  | cons o rest ih =>
    intro total tout h
    simp only [checkOutputs] at h
    split at h
    · exact absurd h (by simp)
    · rename_i hamt
      obtain ⟨hall, hsum⟩ := ih (total + o.amount) tout h
      refine ⟨?_, ?_⟩
      · intro o2 ho2
        rcases List.mem_cons.mp ho2 with rfl | ho2
        · omega
        · exact hall o2 ho2
      · simp only [sumOutputs, List.map_cons, List.sum_cons] at *
        omega

/-- The exhaustive branch analysis of `_validate_and_apply_to_utxo`:
either it fails and returns the view untouched, or it succeeds, the two
loops returned totals with `total_out ≤ total_in`, and the view is
`applyTx`. -/
theorem validate_cases (tx : Transaction) (view : UtxoView) :
    ((validate_and_apply_to_utxo tx view).1.1 = false
      ∧ (validate_and_apply_to_utxo tx view).2 = view)
  ∨ ((validate_and_apply_to_utxo tx view).1.1 = true
      ∧ (validate_and_apply_to_utxo tx view).2 = applyTx tx view
      ∧ isCoinbaseInput tx.inputs = false
      ∧ ∃ tin tout, checkInputs view tx.inputs [] 0 = .ok tin
          ∧ checkOutputs tx.outputs 0 = .ok tout ∧ ¬ tin < tout) := by
  simp only [validate_and_apply_to_utxo]
  split
  · exact Or.inl ⟨rfl, rfl⟩
  · rename_i hcb
    split
    · exact Or.inl ⟨rfl, rfl⟩
    · rename_i tin hin
      split
      · exact Or.inl ⟨rfl, rfl⟩
      · rename_i tout hout
        split
        · exact Or.inl ⟨rfl, rfl⟩
        · rename_i hlt
          exact Or.inr ⟨rfl, rfl, by simpa using hcb, tin, tout, hin, hout, hlt⟩

theorem validate_true_elim (tx : Transaction) (view : UtxoView)
    (h : (validate_and_apply_to_utxo tx view).1.1 = true) :
    (validate_and_apply_to_utxo tx view).2 = applyTx tx view
      ∧ isCoinbaseInput tx.inputs = false
      ∧ ∃ tin tout, checkInputs view tx.inputs [] 0 = .ok tin
          ∧ checkOutputs tx.outputs 0 = .ok tout ∧ ¬ tin < tout := by
  rcases validate_cases tx view with ⟨h1, _⟩ | ⟨_, h2⟩
  · rw [h] at h1; exact absurd h1 (by simp)
  · exact h2

theorem validate_false_view (tx : Transaction) (view : UtxoView)
    (h : (validate_and_apply_to_utxo tx view).1.1 = false) :
    (validate_and_apply_to_utxo tx view).2 = view := by
  rcases validate_cases tx view with ⟨_, h1⟩ | ⟨h2, _⟩
  · exact h1
  · rw [h] at h2; exact absurd h2 (by simp)

theorem validate_false_of_missing (tx : Transaction) (view : UtxoView) (k : UtxoKey)
    (hk : k ∈ tx.inputs.map inputKey) (hv : view k = none) :
    (validate_and_apply_to_utxo tx view).1.1 = false := by
  rcases validate_cases tx view with ⟨h1, _⟩ | ⟨_, _, _, tin, _, hin, _⟩
  · exact h1
  · exfalso
    obtain ⟨i, hi, rfl⟩ := List.mem_map.mp hk
    obtain ⟨e, he⟩ := checkInputs_error_of_missing view tx.inputs [] 0 ⟨i, hi, hv⟩
    rw [he] at hin
    exact absurd hin (by simp)

/-! ### Pointwise description of the apply phase -/

/-- The entry that the apply phase inserts at key `k`, if `k` is one of
the new `(txid, output_index)` keys. -/
def outputEntryFrom (txid : String) (n : Nat) (outs : List TxOutput) (k : UtxoKey) :
    Option UtxoEntry :=
  if k.1 = txid ∧ (n : Int) ≤ k.2 ∧ k.2 < (n : Int) + outs.length then
    (outs.get? (k.2 - (n : Int)).toNat).map (fun o => ⟨o.amount, o.address⟩)
  else none

def outputEntry (txid : String) (outs : List TxOutput) (k : UtxoKey) : Option UtxoEntry :=
  outputEntryFrom txid 0 outs k

theorem foldl_putKey (txid : String) :
    ∀ (outs : List TxOutput) (n : Nat) (v : UtxoView) (k : UtxoKey),
    ((List.enumFrom n outs).foldl
        (fun acc p => putKey acc (txid, (p.1 : Int)) ⟨p.2.amount, p.2.address⟩) v) k
      = match outputEntryFrom txid n outs k with
        | some e => some e
        | none => v k := by
  intro outs
  induction outs with
  | nil =>
    intro n v k
    rw [show outputEntryFrom txid n [] k = none by
      simp only [outputEntryFrom]
      rw [if_neg]
      rintro ⟨-, h1, h2⟩
      simp only [List.length_nil, Nat.cast_zero, add_zero] at h2
      omega]
    simp [List.enumFrom]
  | cons o rest ih =>
    intro n v k
    simp only [List.enumFrom, List.foldl_cons]
    rw [ih (n + 1)]
    rcases k with ⟨ks, ki⟩
    by_cases hs : ks = txid
    case neg =>
      rw [show outputEntryFrom txid (n + 1) rest (ks, ki) = none from by
        simp only [outputEntryFrom]
        rw [if_neg]
        rintro ⟨h, -⟩
        exact hs h]
      rw [show outputEntryFrom txid n (o :: rest) (ks, ki) = none from by
        simp only [outputEntryFrom]
        rw [if_neg]
        rintro ⟨h, -⟩
        exact hs h]
      simp only [putKey]
      rw [if_neg (by simp [Prod.ext_iff, hs])]
    case pos =>
      rw [hs]
      by_cases hlo : (n : Int) + 1 ≤ ki
      · by_cases hhi : ki < ((n : Int) + 1) + rest.length
        · -- in the range handled by the tail fold
          have e1 : outputEntryFrom txid (n + 1) rest (txid, ki)
              = (rest.get? (ki - (((n + 1 : Nat)) : Int)).toNat).map
                  (fun o => (⟨o.amount, o.address⟩ : UtxoEntry)) := by
            simp only [outputEntryFrom]
            rw [if_pos (by exact ⟨by simp, by omega, by omega⟩)]
          have e2 : outputEntryFrom txid n (o :: rest) (txid, ki)
              = ((o :: rest).get? (ki - (n : Int)).toNat).map
                  (fun o => (⟨o.amount, o.address⟩ : UtxoEntry)) := by
            simp only [outputEntryFrom]
            rw [if_pos (by
              refine ⟨by simp, by omega, ?_⟩
              simp only [List.length_cons]
              omega)]
          rw [e1, e2]
          have hidx : (ki - (n : Int)).toNat = (ki - (((n + 1 : Nat)) : Int)).toNat + 1 := by
            omega
          rw [hidx, List.get?_cons_succ]
          rcases h : rest.get? (ki - (((n + 1 : Nat)) : Int)).toNat with _ | oo
          · simp only [Option.map_none']
            simp only [putKey]
            rw [if_neg (by
              simp only [Prod.mk.injEq, not_and]
              intro _ h2
              omega)]
          · simp
        · -- past the end of the list: neither side inserts
          have e1 : outputEntryFrom txid (n + 1) rest (txid, ki) = none := by
            simp only [outputEntryFrom]
            rw [if_neg]
            rintro ⟨-, -, hr⟩
            omega
          have e2 : outputEntryFrom txid n (o :: rest) (txid, ki) = none := by
            simp only [outputEntryFrom]
            rw [if_neg]
            rintro ⟨-, -, hr⟩
            simp only [List.length_cons] at hr
            omega
          rw [e1, e2]
          simp only [putKey]
          rw [if_neg (by
            simp only [Prod.mk.injEq, not_and]
            intro _ h2
            omega)]
      · -- at or before position n: only the head insert can matter
        have e1 : outputEntryFrom txid (n + 1) rest (txid, ki) = none := by
          simp only [outputEntryFrom]
          rw [if_neg]
          rintro ⟨-, hl, -⟩
          omega
        rw [e1]
        by_cases hki : ki = (n : Int)
        · have e2 : outputEntryFrom txid n (o :: rest) (txid, ki)
              = some ⟨o.amount, o.address⟩ := by
            simp only [outputEntryFrom]
            rw [if_pos (by
              refine ⟨by simp, by omega, ?_⟩
              simp only [List.length_cons]
              omega)]
            rw [show (ki - (n : Int)).toNat = 0 by omega]
            simp
          rw [e2]
          simp only [putKey]
          rw [if_pos (by rw [hki])]
        · have e2 : outputEntryFrom txid n (o :: rest) (txid, ki) = none := by
            simp only [outputEntryFrom]
            rw [if_neg]
            rintro ⟨-, hl, -⟩
            omega
          rw [e2]
          simp only [putKey]
          rw [if_neg (by
            simp only [Prod.mk.injEq, not_and]
            intro _ h2
            exact hki h2)]


theorem seedOutputs_lookup (txid : String) (outs : List TxOutput) (v : UtxoView) (k : UtxoKey) :
    seedOutputs txid outs v k
      = match outputEntry txid outs k with
        | some e => some e
        | none => v k := by
  simp only [seedOutputs, List.enum_eq_enumFrom, outputEntry]
  exact foldl_putKey txid outs 0 v k

theorem foldl_popKey (ins : List TxInput) :
    ∀ (v : UtxoView) (k : UtxoKey),
    (ins.foldl (fun acc i => popKey acc (inputKey i)) v) k
      = if k ∈ ins.map inputKey then none else v k := by
  induction ins with
  | nil => intro v k; simp
  | cons i rest ih =>
    intro v k
    simp only [List.foldl_cons, List.map_cons, List.mem_cons]
    rw [ih]
    by_cases h1 : k ∈ rest.map inputKey
    · simp [h1]
    · by_cases h2 : k = inputKey i
      · simp [h1, h2, popKey]
      · simp [h1, h2, popKey]

/-- Pointwise description of the applied view: every output key maps to
its fresh entry, every other consumed input key is gone, everything else
is untouched. -/
theorem applyTx_lookup (tx : Transaction) (view : UtxoView) (k : UtxoKey) :
    applyTx tx view k
      = match outputEntry tx.txid tx.outputs k with
        | some e => some e
        | none => if k ∈ tx.inputs.map inputKey then none else view k := by
  simp only [applyTx]
  rw [seedOutputs_lookup]
  rcases h : outputEntry tx.txid tx.outputs k with _ | e
  · exact foldl_popKey tx.inputs view k
  · rfl

/-! ### Further structural lemmas about mempool admission -/

theorem ofDict_to_dict (tx : Transaction) : Transaction.ofDict tx.to_dict = tx := rfl

theorem foldMempool_append (m : List TxDict) (d : TxDict) (v : UtxoView) :
    foldMempool (m ++ [d]) v
      = (validate_and_apply_to_utxo (Transaction.ofDict d) (foldMempool m v)).2 := by
  simp [foldMempool, List.foldl_append]

theorem outputEntry_ne (txid : String) (outs : List TxOutput) (k : UtxoKey)
    (h : k.1 ≠ txid) : outputEntry txid outs k = none := by
  simp only [outputEntry, outputEntryFrom]
  rw [if_neg]
  rintro ⟨h1, -⟩
  exact h h1

/-- The exhaustive branch analysis of `add_new_transaction`: it either
reports failure with the state untouched, or reports success with the
candidate validated against the mempool-folded view and exactly its
canonical dict appended. -/
theorem add_new_cases (bc : Blockchain) (s : TxSubmission) :
    ((add_new_transaction bc s).1 = false ∧ (add_new_transaction bc s).2 = bc)
  ∨ ((add_new_transaction bc s).1 = true
      ∧ (validate_and_apply_to_utxo ⟨s.inputs, s.outputs⟩
          (foldMempool bc.unconfirmed_transactions bc.utxos)).1.1 = true
      ∧ (add_new_transaction bc s).2
          = { bc with unconfirmed_transactions :=
                bc.unconfirmed_transactions
                  ++ [Transaction.to_dict ⟨s.inputs, s.outputs⟩] }) := by
  simp only [add_new_transaction]
  split
  · exact Or.inl ⟨rfl, rfl⟩
  · split
    · rename_i hr
      exact Or.inr ⟨rfl, hr, rfl⟩
    · exact Or.inl ⟨rfl, rfl⟩

/-! ### Claim theorems: C2, C3, C10, C8 -/

/-- C2: a transaction whose output total strictly exceeds the total of
the UTXO amounts it consumes is rejected by validate-and-apply, every
successfully validated transaction satisfies
sum(outputs) ≤ sum(consumed inputs), and all its output amounts are
strictly positive. -/
theorem C2_conservation (tx : Transaction) (view : UtxoView) :
    (sumConsumed view tx.inputs < sumOutputs tx.outputs →
        (validate_and_apply_to_utxo tx view).1.1 = false)
  ∧ ((validate_and_apply_to_utxo tx view).1.1 = true →
      sumOutputs tx.outputs ≤ sumConsumed view tx.inputs
        ∧ ∀ o ∈ tx.outputs, 0 < o.amount) := by
  have hmain : (validate_and_apply_to_utxo tx view).1.1 = true →
      sumOutputs tx.outputs ≤ sumConsumed view tx.inputs
        ∧ ∀ o ∈ tx.outputs, 0 < o.amount := by
    intro h
    obtain ⟨-, -, tin, tout, hin, hout, hle⟩ := validate_true_elim tx view h
    obtain ⟨-, -, -, hsumin⟩ := checkInputs_ok view tx.inputs [] 0 tin hin
    obtain ⟨hpos, hsumout⟩ := checkOutputs_ok tx.outputs 0 tout hout
    exact ⟨by omega, hpos⟩
  refine ⟨?_, hmain⟩
  intro hlt
  cases h : (validate_and_apply_to_utxo tx view).1.1 with
  | false => rfl
  | true =>
    obtain ⟨hle, -⟩ := hmain h
    omega

def txW2 : Transaction := ⟨[⟨"h", 0, "alice"⟩], [⟨6, "bob"⟩]⟩

def viewW2 : UtxoView := putKey emptyView ("h", 0) ⟨5, "alice"⟩

theorem C2_conservation_witness :
    sumConsumed viewW2 txW2.inputs < sumOutputs txW2.outputs
    ∧ (validate_and_apply_to_utxo txW2 viewW2).1.1 = false := by
  exact ⟨by decide, (C2_conservation txW2 viewW2).1 (by decide)⟩

/-- C3: validate-and-apply is atomic: on failure the supplied view is
returned exactly unchanged, and on success the view at every key is
exactly: the fresh `(txid, output_index) → (amount, address)` entry for
an output key, `none` for a consumed input key, and the old value
elsewhere. -/
theorem C3_validate_atomic (tx : Transaction) (view : UtxoView) :
    ((validate_and_apply_to_utxo tx view).1.1 = false →
        (validate_and_apply_to_utxo tx view).2 = view)
  ∧ ((validate_and_apply_to_utxo tx view).1.1 = true →
      ∀ k, (validate_and_apply_to_utxo tx view).2 k
        = match outputEntry tx.txid tx.outputs k with
          | some e => some e
          | none => if k ∈ tx.inputs.map inputKey then none else view k) := by
  refine ⟨validate_false_view tx view, ?_⟩
  intro h k
  rw [(validate_true_elim tx view h).1]
  exact applyTx_lookup tx view k

def txW3 : Transaction := ⟨[⟨"h", 0, "alice"⟩], [⟨5, "bob"⟩]⟩

def viewW3 : UtxoView := putKey emptyView ("h", 0) ⟨5, "alice"⟩

def txW3bad : Transaction := ⟨[⟨"h", 0, "carol"⟩], []⟩

theorem C3_validate_atomic_witness :
    (validate_and_apply_to_utxo txW3 viewW3).1.1 = true
    ∧ (validate_and_apply_to_utxo txW3 viewW3).2 (txW3.txid, 0) = some ⟨5, "bob"⟩
    ∧ (validate_and_apply_to_utxo txW3 viewW3).2 ("h", 0) = none
    ∧ (validate_and_apply_to_utxo txW3bad viewW3).1.1 = false
    ∧ (validate_and_apply_to_utxo txW3bad viewW3).2 = viewW3 := by
  have h1 : (validate_and_apply_to_utxo txW3 viewW3).1.1 = true := by decide
  have h2 := (C3_validate_atomic txW3 viewW3).2 h1 (txW3.txid, 0)
  have h3 := (C3_validate_atomic txW3 viewW3).2 h1 ("h", 0)
  have h4 : (validate_and_apply_to_utxo txW3bad viewW3).1.1 = false := by decide
  refine ⟨h1, ?_, ?_, h4, (C3_validate_atomic txW3bad viewW3).1 h4⟩
  · rw [h2]
    decide
  · rw [h3]
    decide

/-- C10: the degenerate transaction with no inputs and no outputs
validates against every view, leaves it unchanged, and is admitted to
the mempool by `add_new_transaction` (its canonical dict is appended). -/
theorem C10_empty_tx (view : UtxoView) (bc : Blockchain) :
    validate_and_apply_to_utxo ⟨[], []⟩ view = ((true, none), view)
    ∧ (add_new_transaction bc ⟨none, [], []⟩).1 = true
    ∧ (add_new_transaction bc ⟨none, [], []⟩).2.unconfirmed_transactions
        = bc.unconfirmed_transactions ++ [Transaction.to_dict ⟨[], []⟩] := by
  have hv : ∀ w : UtxoView, validate_and_apply_to_utxo ⟨[], []⟩ w = ((true, none), w) :=
    fun w => rfl
  refine ⟨hv view, ?_⟩
  rcases add_new_cases bc ⟨none, [], []⟩ with ⟨h1, -⟩ | ⟨h1, -, h3⟩
  · exfalso
    simp only [add_new_transaction] at h1
    rw [if_neg (by simp)] at h1
    rw [hv (foldMempool bc.unconfirmed_transactions bc.utxos)] at h1
    exact absurd h1 (by simp)
  · exact ⟨h1, by rw [h3]⟩

/-- C8: `add_new_transaction` rejects a submission whose asserted txid
differs from the recomputed one, leaves the state unchanged on every
failure, and on success appends exactly the canonical dict of the
submitted transaction. -/
theorem C8_admission_spec (bc : Blockchain) (s : TxSubmission) :
    (∀ t, s.txid = some t → t ≠ compute_txid s.inputs s.outputs →
        add_new_transaction bc s = (false, bc))
  ∧ ((add_new_transaction bc s).1 = false → (add_new_transaction bc s).2 = bc)
  ∧ ((add_new_transaction bc s).1 = true →
      (add_new_transaction bc s).2.unconfirmed_transactions
        = bc.unconfirmed_transactions ++ [Transaction.to_dict ⟨s.inputs, s.outputs⟩]) := by
  refine ⟨?_, ?_, ?_⟩
  · intro t ht hne
    simp only [add_new_transaction, ht]
    rw [if_pos]
    simp only [Transaction.txid, bne_iff_ne, ne_eq]
    exact hne
  · intro h
    rcases add_new_cases bc s with ⟨-, h2⟩ | ⟨h1, -, -⟩
    · exact h2
    · rw [h] at h1
      exact absurd h1 (by simp)
  · intro h
    rcases add_new_cases bc s with ⟨h1, -⟩ | ⟨-, -, h3⟩
    · rw [h] at h1
      exact absurd h1 (by simp)
    · rw [h3]

def bcW8 : Blockchain :=
  { chain := [], unconfirmed_transactions := [], utxos := emptyView,
    difficulty := 0, block_reward := 50 }

theorem C8_admission_witness :
    add_new_transaction bcW8 ⟨some "x", [], []⟩ = (false, bcW8)
    ∧ (add_new_transaction bcW8 ⟨none, [], [⟨1, "a"⟩]⟩).2 = bcW8
    ∧ (add_new_transaction bcW8 ⟨none, [], []⟩).2.unconfirmed_transactions
        = bcW8.unconfirmed_transactions ++ [Transaction.to_dict ⟨[], []⟩] := by
  refine ⟨(C8_admission_spec bcW8 ⟨some "x", [], []⟩).1 "x" rfl (by decide),
          (C8_admission_spec bcW8 ⟨none, [], [⟨1, "a"⟩]⟩).2.1 (by decide),
          (C8_admission_spec bcW8 ⟨none, [], []⟩).2.2 (by decide)⟩

/-! ### The digest is longer than any embedded string

These lemmas justify the model's collision-freedom surrogate: the hex
digest of a transaction's canonical serialization is strictly longer
than any of the transaction's own input txids, so a transaction can
never re-create a UTXO key it consumes. -/

theorem escapeChar_length (c : Char) : 1 ≤ (escapeChar c).length := by
  unfold escapeChar
  split_ifs <;> simp

theorem escList_length (cs : List Char) : cs.length ≤ (escList cs).length := by
  induction cs with
  | nil => simp [escList]
  | cons c cs ih =>
    have h1 := escapeChar_length c
    simp only [escList, List.length_append, List.length_cons]
    omega

theorem quoteStr_length (s : String) : s.length + 2 ≤ (quoteStr s).length := by
  have h1 := escList_length s.data
  simp only [quoteStr, List.length_cons, List.length_append]
  have h2 : s.length = s.data.length := rfl
  omega

theorem hexByte_length (n : Nat) : (hexByte n).length = 2 := rfl

theorem hexList_length (cs : List Char) : (hexList cs).length = 2 * cs.length := by
  induction cs with
  | nil => rfl
  | cons c cs ih =>
    simp only [hexList, List.length_append, hexByte_length, List.length_cons, ih]
    omega

theorem hexOfString_length (s : String) : (hexOfString s).length = 2 * s.length :=
  hexList_length s.data

theorem serializeList_le (x : Json) :
    ∀ xs : List Json, x ∈ xs → (serialize x).length ≤ (serializeList xs).length := by
  intro xs
  induction xs with
  | nil => intro h; simp at h
  | cons y ys ih =>
    intro hmem
    rcases ys with _ | ⟨z, zs⟩
    · rcases List.mem_singleton.mp hmem with rfl
      simp [serializeList]
    · rcases List.mem_cons.mp hmem with rfl | hmem
      · simp only [serializeList, List.length_append, List.length_cons]
        omega
      · have := ih hmem
        simp only [serializeList, List.length_append, List.length_cons]
        omega

theorem serializeFields_le (k : String) (v : Json) :
    ∀ fs : List (String × Json), (k, v) ∈ fs →
    (serialize v).length ≤ (serializeFields fs).length := by
  intro fs
  induction fs with
  | nil => intro h; simp at h
  | cons f gs ih =>
    intro hmem
    rcases gs with _ | ⟨g, gs⟩
    · rcases List.mem_singleton.mp hmem with rfl
      simp only [serializeFields, List.length_append, List.length_cons]
      omega
    · rcases List.mem_cons.mp hmem with rfl | hmem
      · simp only [serializeFields, List.length_append, List.length_cons]
        omega
      · have := ih hmem
        rcases f with ⟨fk, fv⟩
        simp only [serializeFields, List.length_append, List.length_cons]
        omega

theorem serialize_obj_le (k : String) (v : Json) (fs : List (String × Json))
    (h : (k, v) ∈ fs) : (serialize v).length ≤ (serialize (Json.obj fs)).length := by
  have := serializeFields_le k v fs h
  simp only [serialize, List.length_append, List.length_cons]
  omega

theorem serialize_arr_le (x : Json) (xs : List Json) (h : x ∈ xs) :
    (serialize x).length ≤ (serialize (Json.arr xs)).length := by
  have := serializeList_le x xs h
  simp only [serialize, List.length_append, List.length_cons]
  omega

theorem canonList_mem {x : Json} : ∀ {xs : List Json}, x ∈ xs → canon x ∈ canonList xs := by
  intro xs
  induction xs with
  | nil => intro h; simp at h
  | cons y ys ih =>
    intro hmem
    rcases List.mem_cons.mp hmem with rfl | hmem
    · simp [canonList]
    · simp only [canonList, List.mem_cons]
      exact Or.inr (ih hmem)

theorem sortFields_mem {p : String × Json} {fs : List (String × Json)} (h : p ∈ fs) :
    p ∈ sortFields fs :=
  (List.perm_insertionSort fieldLE fs).mem_iff.mpr h

theorem txid_embedded (ins : List TxInput) (outs : List TxOutput) (i : TxInput)
    (hi : i ∈ ins) :
    i.txid.length + 2 ≤ (serialize (canon (txContentJson ins outs))).length := by
  have h0 : canon (txContentJson ins outs)
      = Json.obj (sortFields
          [("inputs", Json.arr (canonList (ins.map inputJson))),
           ("outputs", Json.arr (canonList (outs.map outputJson)))]) := by
    simp [canon, canonFields, txContentJson]
  have h4 : canon (inputJson i)
      = Json.obj (sortFields
          [("txid", Json.str i.txid), ("index", Json.num i.index),
           ("address", Json.str i.address)]) := by
    simp [canon, canonFields, inputJson]
  have s1 : (serialize (Json.arr (canonList (ins.map inputJson)))).length
      ≤ (serialize (canon (txContentJson ins outs))).length := by
    rw [h0]
    exact serialize_obj_le "inputs" (Json.arr (canonList (ins.map inputJson))) _
      (sortFields_mem (by simp))
  have s2 : canon (inputJson i) ∈ canonList (ins.map inputJson) :=
    canonList_mem (List.mem_map_of_mem inputJson hi)
  have s3 : (serialize (canon (inputJson i))).length
      ≤ (serialize (Json.arr (canonList (ins.map inputJson)))).length :=
    serialize_arr_le _ _ s2
  have s5 : (serialize (Json.str i.txid)).length
      ≤ (serialize (canon (inputJson i))).length := by
    rw [h4]
    exact serialize_obj_le "txid" (Json.str i.txid) _ (sortFields_mem (by simp))
  have s6 : i.txid.length + 2 ≤ (serialize (Json.str i.txid)).length := by
    have := quoteStr_length i.txid
    simp only [serialize]
    omega
  omega

theorem compute_txid_ne_input (ins : List TxInput) (outs : List TxOutput) (i : TxInput)
    (hi : i ∈ ins) : compute_txid ins outs ≠ i.txid := by
  intro h
  have hlen : (compute_txid ins outs).length = i.txid.length := by rw [h]
  have h2 : (compute_txid ins outs).length
      = 2 * (serialize (canon (txContentJson ins outs))).length :=
    hexOfString_length _
  have h3 := txid_embedded ins outs i hi
  omega

/-! ### Claim theorem: C1 -/

/-- C1: double-spend rejection.  A transaction whose input list repeats
a `(txid, index)` key is rejected by validate-and-apply against every
view; and once a transaction consuming key `k` has been admitted to the
mempool, any further submission consuming `k` is rejected by
`add_new_transaction`. -/
theorem C1_double_spend :
    (∀ (tx : Transaction) (view : UtxoView),
        ¬ (tx.inputs.map inputKey).Nodup →
        (validate_and_apply_to_utxo tx view).1.1 = false)
  ∧ (∀ (bc : Blockchain) (s : TxSubmission),
        ¬ (s.inputs.map inputKey).Nodup →
        (add_new_transaction bc s).1 = false)
  ∧ (∀ (bc : Blockchain) (s1 s2 : TxSubmission) (k : UtxoKey),
        (add_new_transaction bc s1).1 = true →
        k ∈ s1.inputs.map inputKey →
        k ∈ s2.inputs.map inputKey →
        (add_new_transaction (add_new_transaction bc s1).2 s2).1 = false) := by
  have part1 : ∀ (tx : Transaction) (view : UtxoView),
      ¬ (tx.inputs.map inputKey).Nodup →
      (validate_and_apply_to_utxo tx view).1.1 = false := by
    intro tx view hnd
    cases h : (validate_and_apply_to_utxo tx view).1.1 with
    | false => rfl
    | true =>
      obtain ⟨-, -, tin, -, hin, -, -⟩ := validate_true_elim tx view h
      obtain ⟨hnodup, -, -, -⟩ := checkInputs_ok view tx.inputs [] 0 tin hin
      exact absurd hnodup hnd
  refine ⟨part1, ?_, ?_⟩
  · intro bc s hnd
    rcases add_new_cases bc s with ⟨hf, -⟩ | ⟨-, hval, -⟩
    · exact hf
    · rw [part1 ⟨s.inputs, s.outputs⟩ _ hnd] at hval
      exact absurd hval (by simp)
  · intro bc s1 s2 k h1 hk1 hk2
    rcases add_new_cases bc s1 with ⟨hf, -⟩ | ⟨-, hval, hst⟩
    · rw [h1] at hf
      exact absurd hf (by simp)
    · rcases add_new_cases (add_new_transaction bc s1).2 s2 with ⟨hf2, -⟩ | ⟨-, hval2, -⟩
      · exact hf2
      · exfalso
        rw [hst] at hval2
        have hV' : foldMempool
            (bc.unconfirmed_transactions ++ [Transaction.to_dict ⟨s1.inputs, s1.outputs⟩])
            bc.utxos
            = applyTx ⟨s1.inputs, s1.outputs⟩
                (foldMempool bc.unconfirmed_transactions bc.utxos) := by
          rw [foldMempool_append, ofDict_to_dict]
          exact (validate_true_elim _ _ hval).1
        have hlookup : (foldMempool
            (bc.unconfirmed_transactions ++ [Transaction.to_dict ⟨s1.inputs, s1.outputs⟩])
            bc.utxos) k = none := by
          rw [hV', applyTx_lookup]
          obtain ⟨i, hi, hik⟩ := List.mem_map.mp hk1
          have hne : k.1 ≠ Transaction.txid ⟨s1.inputs, s1.outputs⟩ := by
            rw [← hik]
            exact fun hh => compute_txid_ne_input s1.inputs s1.outputs i hi hh.symm
          rw [outputEntry_ne _ _ _ hne]
          rw [if_pos hk1]
        exact absurd hval2
          (by rw [validate_false_of_missing ⟨s2.inputs, s2.outputs⟩ _ k hk2 hlookup]; simp)

def bcW1 : Blockchain :=
  { chain := [], unconfirmed_transactions := [],
    utxos := putKey emptyView ("h", 0) ⟨5, "alice"⟩,
    difficulty := 0, block_reward := 50 }

def subW1 : TxSubmission := ⟨none, [⟨"h", 0, "alice"⟩], [⟨5, "bob"⟩]⟩

def subW1b : TxSubmission := ⟨none, [⟨"h", 0, "alice"⟩], [⟨5, "carol"⟩]⟩

def txDupW : Transaction := ⟨[⟨"h", 0, "alice"⟩, ⟨"h", 0, "alice"⟩], []⟩

theorem C1_double_spend_witness :
    (add_new_transaction bcW1 subW1).1 = true
    ∧ (add_new_transaction (add_new_transaction bcW1 subW1).2 subW1b).1 = false
    ∧ (validate_and_apply_to_utxo txDupW emptyView).1.1 = false
    ∧ (add_new_transaction bcW1 ⟨none, txDupW.inputs, txDupW.outputs⟩).1 = false :=
  ⟨by decide,
   C1_double_spend.2.2 bcW1 subW1 subW1b ("h", 0) (by decide) (by decide) (by decide),
   C1_double_spend.1 txDupW emptyView (by decide),
   C1_double_spend.2.1 bcW1 ⟨none, txDupW.inputs, txDupW.outputs⟩ (by decide)⟩

/-! ### Proof-of-work lemmas and claim theorems C6, C5, C4 -/

theorem mineFrom_spec :
    ∀ (fuel : Nat) (b : Block) (target : String) (n : Int) (b2 : Block),
    mineFrom b target n fuel = some b2 →
    b2.index = b.index ∧ b2.transactions = b.transactions ∧ b2.timestamp = b.timestamp
      ∧ b2.previous_hash = b.previous_hash ∧ b2.difficulty = b.difficulty
      ∧ n ≤ b2.nonce
      ∧ b2.hash = some b2.compute_hash
      ∧ strStartsWith b2.compute_hash target = true
      ∧ ∀ j : Int, n ≤ j → j < b2.nonce →
          strStartsWith (Block.compute_hash { b with nonce := j }) target = false := by
  intro fuel
  induction fuel with
  | zero =>
    intro b target n b2 h
    simp [mineFrom] at h
  | succ fuel ih =>
    intro b target n b2 h
    simp only [mineFrom] at h
    split at h
    · rename_i hsw
      rcases Option.some.inj h with rfl
      refine ⟨rfl, rfl, rfl, rfl, rfl, le_refl n, rfl, hsw, ?_⟩
      intro j hj1 hj2
      exact absurd (show j < n from hj2) (by omega)
    · rename_i hsw
      obtain ⟨h1, h2, h3, h4, h5, h6, h7, h8, h9⟩ := ih b target (n + 1) b2 h
      refine ⟨h1, h2, h3, h4, h5, by omega, h7, h8, ?_⟩
      intro j hj1 hj2
      by_cases hj : j = n
      · subst hj
        exact Bool.not_eq_true _ ▸ eq_false_of_ne_true hsw
      · exact h9 j (by omega) hj2

/-- C6: whenever `Block.mine` terminates, the block's stored hash is a
fresh recomputation of its content hash, that digest meets the
difficulty target, the search started at nonce 0, the stored nonce is
the least satisfying nonce, and all other fields are unchanged. -/
theorem C6_mine_spec (b : Block) (d : Nat) (fuel : Nat) (b2 : Block)
    (h : b.mine d fuel = some b2) :
    b2.hash = some b2.compute_hash
    ∧ strStartsWith b2.compute_hash (zeroTarget d) = true
    ∧ 0 ≤ b2.nonce
    ∧ (∀ j : Int, 0 ≤ j → j < b2.nonce →
        strStartsWith (Block.compute_hash { b with nonce := j }) (zeroTarget d) = false)
    ∧ b2.index = b.index ∧ b2.transactions = b.transactions ∧ b2.timestamp = b.timestamp
    ∧ b2.previous_hash = b.previous_hash ∧ b2.difficulty = b.difficulty := by
  obtain ⟨h1, h2, h3, h4, h5, h6, h7, h8, h9⟩ := mineFrom_spec fuel b (zeroTarget d) 0 b2 h
  exact ⟨h7, h8, h6, h9, h1, h2, h3, h4, h5⟩

def bW6 : Block :=
  { index := 0, transactions := [], timestamp := 0, previous_hash := some "0",
    nonce := 7, hash := none, difficulty := 3 }

def bM6 : Block := (bW6.mine 0 1).get (by decide)

theorem C6_mine_spec_witness :
    bW6.mine 0 1 = some bM6
    ∧ bM6.hash = some bM6.compute_hash
    ∧ strStartsWith bM6.compute_hash (zeroTarget 0) = true
    ∧ bM6.nonce = 0 := by
  have h : bW6.mine 0 1 = some bM6 := by decide
  have hs := C6_mine_spec bW6 0 1 bM6 h
  exact ⟨h, hs.1, hs.2.1, by decide⟩

/-- C5: whenever `create_genesis_block` terminates, the resulting
one-block chain passes `is_chain_valid`. -/
theorem C5_genesis_valid (bc : Blockchain) (miner : String) (ts : Int) (fuel : Nat)
    (bc2 : Blockchain) (h : create_genesis_block bc miner ts fuel = some bc2) :
    bc2.is_chain_valid = true := by
  simp only [create_genesis_block] at h
  split at h
  · exact absurd h (by simp)
  · rename_i g2 hg2
    rcases Option.some.inj h with rfl
    obtain ⟨-, -, -, hph, -, -, hhash, -, -⟩ :=
      mineFrom_spec fuel _ (zeroTarget bc.difficulty) 0 g2 hg2
    have hph2 : g2.previous_hash = some "0" := hph
    simp only [Blockchain.is_chain_valid]
    rw [hph2, hhash]
    simp [chainWalk]

def bcW5 : Blockchain :=
  { chain := [], unconfirmed_transactions := [], utxos := emptyView,
    difficulty := 0, block_reward := 50 }

theorem C5_genesis_valid_witness :
    (create_genesis_block bcW5 "alice" 0 1).map Blockchain.is_chain_valid = some true := by
  have h : (create_genesis_block bcW5 "alice" 0 1).isSome = true := by decide
  have hv := C5_genesis_valid bcW5 "alice" 0 1 _ (Option.some_get h).symm
  rw [← Option.some_get h, Option.map_some', hv]

theorem chainWalk_pow (diff : Nat) :
    ∀ (bs : List Block) (prev : Block) (v : UtxoView),
    chainWalk diff prev bs v = true →
    ∀ b ∈ bs, ∃ hh, b.hash = some hh ∧ strStartsWith hh (zeroTarget diff) = true := by
  intro bs
  induction bs with
  | nil =>
    intro _ _ _ b hb
    simp at hb
  | cons b rest ih =>
    intro prev v h
    simp only [chainWalk] at h
    split at h
    · exact absurd h (by simp)
    · split at h
      · exact absurd h (by simp)
      · rename_i hh hheq
        split at h
        · exact absurd h (by simp)
        · split at h
          · exact absurd h (by simp)
          · rename_i hsw
            split at h
            · exact absurd h (by simp)
            · rename_i v2 happ
              intro b2 hb2
              rcases List.mem_cons.mp hb2 with rfl | hb2
              · exact ⟨hh, hheq, not_not.mp hsw⟩
              · exact ih b v2 h b2 hb2

/-- C4 (amended): every chain accepted by `is_chain_valid` satisfies the
proof-of-work bound, at the chain's configured difficulty, for every
block except genesis: each non-genesis block carries a stored hash with
at least `difficulty` leading zero hex characters.  (The genesis hash is
not proof-of-work-checked, and the blocks' recorded `difficulty` fields
are not consulted; see the counterexample.) -/
theorem C4_pow_amended (bc : Blockchain) (h : bc.is_chain_valid = true) :
    ∀ b ∈ bc.chain.drop 1, ∃ hh, b.hash = some hh
      ∧ strStartsWith hh (zeroTarget bc.difficulty) = true := by
  intro b hb
  rcases hchain : bc.chain with _ | ⟨g, rest⟩
  · rw [hchain] at hb
    simp at hb
  · rw [hchain] at hb
    simp only [List.drop_one, List.tail_cons] at hb
    simp only [Blockchain.is_chain_valid, hchain] at h
    split at h
    · exact absurd h (by simp)
    · split at h
      · exact absurd h (by simp)
      · split at h
        · exact absurd h (by simp)
        · exact chainWalk_pow bc.difficulty rest g _ h b hb

/-- A genesis-only chain whose block records difficulty 1 and whose
stored hash is a correct content hash with no leading zero: the chain is
accepted, refuting the claim that acceptance forces the proof-of-work
bound for genesis at the recorded difficulty. -/
def gBad : Block :=
  { index := 0, transactions := [], timestamp := 0, previous_hash := some "0",
    nonce := 0, hash := none, difficulty := 1 }

def gBadSealed : Block := { gBad with hash := some gBad.compute_hash }

def bcBad : Blockchain :=
  { chain := [gBadSealed], unconfirmed_transactions := [], utxos := emptyView,
    difficulty := 1, block_reward := 50 }

def gBad2 : Block :=
  { index := 0, transactions := [], timestamp := 0, previous_hash := some "0",
    nonce := 0, hash := none, difficulty := 0 }

def gBad2Sealed : Block := { gBad2 with hash := some gBad2.compute_hash }

def b1Bad2 : Block :=
  { index := 1, transactions := [], timestamp := 0,
    previous_hash := some gBad2.compute_hash, nonce := 0, hash := none, difficulty := 7 }

def b1Bad2Sealed : Block := { b1Bad2 with hash := some b1Bad2.compute_hash }

/-- A two-block chain at configured difficulty 0 whose second block
records difficulty 7: accepted, though its hash has no leading zeros. -/
def bcBad2 : Blockchain :=
  { chain := [gBad2Sealed, b1Bad2Sealed], unconfirmed_transactions := [],
    utxos := emptyView, difficulty := 0, block_reward := 50 }

theorem C4_pow_counterexample :
    (bcBad.is_chain_valid = true
      ∧ gBadSealed ∈ bcBad.chain
      ∧ gBadSealed.difficulty = 1
      ∧ bcBad.difficulty = 1
      ∧ gBadSealed.hash = some gBadSealed.compute_hash
      ∧ strStartsWith gBadSealed.compute_hash (zeroTarget 1) = false)
    ∧ (bcBad2.is_chain_valid = true
      ∧ b1Bad2Sealed ∈ bcBad2.chain
      ∧ b1Bad2Sealed.difficulty = 7
      ∧ b1Bad2Sealed.hash = some b1Bad2Sealed.compute_hash
      ∧ strStartsWith b1Bad2Sealed.compute_hash (zeroTarget 7) = false) := by
  refine ⟨⟨by decide, by simp [bcBad], by decide, by decide, by decide, by decide⟩,
          ⟨by decide, by simp [bcBad2], by decide, by decide, by decide⟩⟩

def gW4 : Block :=
  { index := 0, transactions := [], timestamp := 0, previous_hash := some "0",
    nonce := 0, hash := none, difficulty := 0 }

def gW4s : Block := { gW4 with hash := some gW4.compute_hash }

def b1W4 : Block :=
  { index := 1, transactions := [], timestamp := 0,
    previous_hash := some gW4.compute_hash, nonce := 0, hash := none, difficulty := 0 }

def b1W4s : Block := { b1W4 with hash := some b1W4.compute_hash }

def bcW4 : Blockchain :=
  { chain := [gW4s, b1W4s], unconfirmed_transactions := [], utxos := emptyView,
    difficulty := 0, block_reward := 50 }

theorem C4_pow_amended_witness :
    bcW4.is_chain_valid = true
    ∧ b1W4s.hash = some b1W4s.compute_hash
    ∧ strStartsWith b1W4s.compute_hash (zeroTarget bcW4.difficulty) = true := by
  have h : bcW4.is_chain_valid = true := by decide
  obtain ⟨hh, h1, h2⟩ := C4_pow_amended bcW4 h b1W4s (by decide)
  have hd : b1W4s.hash = some b1W4s.compute_hash := by decide
  rw [hd] at h1
  rw [← Option.some.inj h1] at h2
  exact ⟨h, hd, h2⟩

/-! ### Claim C7: mining inclusion and the mempool afterwards -/

/-- Modelled from the claim's description of block assembly: walk the
mempool in its original order against the evolving working view,
collecting the transactions that validate (in order), the ones that do
not (in order), and the final view. -/
def selectTxs : List TxDict → UtxoView → List TxDict × List TxDict × UtxoView
| [], v => ([], [], v)
| d :: rest, v =>
  let r := validate_and_apply_to_utxo (Transaction.ofDict d) v
  let p := selectTxs rest r.2
  if r.1.1 then (d :: p.1, p.2.1, p.2.2) else (p.1, d :: p.2.1, p.2.2)

/-- The working view right after the coinbase outputs are added in
`Blockchain.mine`. -/
def coinbaseView (bc : Blockchain) (miner_address : String) : UtxoView :=
  seedOutputs (Transaction.coinbase miner_address bc.block_reward (bc.chain.length : Int)).txid
    (Transaction.coinbase miner_address bc.block_reward (bc.chain.length : Int)).outputs
    bc.utxos

theorem selectTxs_cons_true {d : TxDict} {v : UtxoView} (rest : List TxDict)
    (hr : (validate_and_apply_to_utxo (Transaction.ofDict d) v).1.1 = true) :
    selectTxs (d :: rest) v
      = (d :: (selectTxs rest (validate_and_apply_to_utxo (Transaction.ofDict d) v).2).1,
          (selectTxs rest (validate_and_apply_to_utxo (Transaction.ofDict d) v).2).2) := by
  simp only [selectTxs]
  rw [if_pos hr]

theorem selectTxs_cons_false {d : TxDict} {v : UtxoView} (rest : List TxDict)
    (hr : (validate_and_apply_to_utxo (Transaction.ofDict d) v).1.1 = false) :
    selectTxs (d :: rest) v
      = ((selectTxs rest (validate_and_apply_to_utxo (Transaction.ofDict d) v).2).1,
          d :: (selectTxs rest (validate_and_apply_to_utxo (Transaction.ofDict d) v).2).2.1,
          (selectTxs rest (validate_and_apply_to_utxo (Transaction.ofDict d) v).2).2.2) := by
  simp only [selectTxs]
  rw [if_neg (by simp [hr])]

theorem mineLoop_eq_selectTxs :
    ∀ (m : List TxDict) (v : UtxoView),
    mineLoop m v = ((selectTxs m v).1, (selectTxs m v).2.2) := by
  intro m
  induction m with
  | nil => intro v; rfl
  | cons d rest ih =>
    intro v
    cases hr : (validate_and_apply_to_utxo (Transaction.ofDict d) v).1.1 with
    | true =>
      rw [selectTxs_cons_true rest hr]
      simp only [mineLoop]
      rw [if_pos hr, ih]
    | false =>
      rw [selectTxs_cons_false rest hr]
      simp only [mineLoop]
      rw [if_neg (by simp [hr]), ih]

theorem selectTxs_incl_sublist :
    ∀ (m : List TxDict) (v : UtxoView), (selectTxs m v).1.Sublist m := by
  intro m
  induction m with
  | nil => intro v; simp [selectTxs]
  | cons d rest ih =>
    intro v
    cases hr : (validate_and_apply_to_utxo (Transaction.ofDict d) v).1.1 with
    | true =>
      rw [selectTxs_cons_true rest hr]
      exact (ih _).cons₂ d
    | false =>
      rw [selectTxs_cons_false rest hr]
      exact (ih _).cons d

theorem selectTxs_excl_sublist :
    ∀ (m : List TxDict) (v : UtxoView), (selectTxs m v).2.1.Sublist m := by
  intro m
  induction m with
  | nil => intro v; simp [selectTxs]
  | cons d rest ih =>
    intro v
    cases hr : (validate_and_apply_to_utxo (Transaction.ofDict d) v).1.1 with
    | true =>
      rw [selectTxs_cons_true rest hr]
      exact (ih _).cons d
    | false =>
      rw [selectTxs_cons_false rest hr]
      exact (ih _).cons₂ d

theorem selectTxs_partition :
    ∀ (m : List TxDict) (v : UtxoView), m.Nodup →
    m.filter (fun t => decide (t ∉ (selectTxs m v).1)) = (selectTxs m v).2.1 := by
  intro m
  induction m with
  | nil => intro v _; rfl
  | cons d rest ih =>
    intro v hnd
    have hdrest : d ∉ rest := (List.nodup_cons.mp hnd).1
    have hnd2 : rest.Nodup := (List.nodup_cons.mp hnd).2
    cases hr : (validate_and_apply_to_utxo (Transaction.ofDict d) v).1.1 with
    | true =>
      rw [selectTxs_cons_true rest hr]
      rw [List.filter_cons]
      rw [if_neg (by simp)]
      have hcongr : List.filter
          (fun t => decide (t ∉ d :: (selectTxs rest
            (validate_and_apply_to_utxo (Transaction.ofDict d) v).2).1)) rest
          = List.filter
              (fun t => decide (t ∉ (selectTxs rest
                (validate_and_apply_to_utxo (Transaction.ofDict d) v).2).1)) rest := by
        apply List.filter_congr
        intro t ht
        have hne : t ≠ d := fun hh => hdrest (hh ▸ ht)
        simp [hne]
      rw [hcongr]
      exact ih _ hnd2
    | false =>
      rw [selectTxs_cons_false rest hr]
      rw [List.filter_cons]
      rw [if_pos (by
        simp only [decide_eq_true_eq]
        intro hmem
        exact hdrest (((selectTxs_incl_sublist rest _).subset) hmem))]
      rw [ih _ hnd2]

/-- C7 (amended): whenever `Blockchain.mine` terminates, the appended
block's transaction list is exactly the fresh coinbase followed by the
mempool transactions that validate against the evolving coinbase-seeded
working view, in their original relative order (a sublist of the
mempool); afterwards the mempool consists of the original entries that
are not equal (by value) to any included transaction — which, for a
mempool without duplicate entries, is exactly the list of transactions
that were not included.  (For a mempool with duplicate entries the code
also removes the non-included copies; see the counterexample.) -/
theorem C7_mining_inclusion (bc : Blockchain) (miner : String) (ts : Int) (fuel : Nat)
    (out : Blockchain × Int) (h : bc.mine miner ts fuel = some out) :
    (∃ mined, out.1.chain = bc.chain ++ [mined]
      ∧ out.2 = mined.index
      ∧ mined.transactions
          = (Transaction.coinbase miner bc.block_reward (bc.chain.length : Int)).to_dict
              :: (selectTxs bc.unconfirmed_transactions (coinbaseView bc miner)).1)
    ∧ (selectTxs bc.unconfirmed_transactions (coinbaseView bc miner)).1.Sublist
        bc.unconfirmed_transactions
    ∧ out.1.unconfirmed_transactions
        = bc.unconfirmed_transactions.filter
            (fun t => decide
              (t ∉ (selectTxs bc.unconfirmed_transactions (coinbaseView bc miner)).1))
    ∧ (bc.unconfirmed_transactions.Nodup →
        out.1.unconfirmed_transactions
          = (selectTxs bc.unconfirmed_transactions (coinbaseView bc miner)).2.1) := by
  have hcv : seedOutputs
      (Transaction.coinbase miner bc.block_reward (bc.chain.length : Int)).txid
      (Transaction.coinbase miner bc.block_reward (bc.chain.length : Int)).outputs
      bc.utxos = coinbaseView bc miner := rfl
  simp only [Blockchain.mine] at h
  rw [hcv] at h
  split at h
  · exact absurd h (by simp)
  · rename_i mined hmine
    rcases Option.some.inj h with rfl
    obtain ⟨-, htx, -, -, -, -, -, -, -⟩ := mineFrom_spec fuel _ _ 0 mined hmine
    have htx2 : mined.transactions
        = (Transaction.coinbase miner bc.block_reward (bc.chain.length : Int)).to_dict
            :: (mineLoop bc.unconfirmed_transactions (coinbaseView bc miner)).1 := htx
    rw [mineLoop_eq_selectTxs] at htx2
    have hl : (mineLoop bc.unconfirmed_transactions (coinbaseView bc miner)).1
        = (selectTxs bc.unconfirmed_transactions (coinbaseView bc miner)).1 := by
      rw [mineLoop_eq_selectTxs]
    have hfil : bc.unconfirmed_transactions.filter
        (fun t => decide
          (t ∉ (mineLoop bc.unconfirmed_transactions (coinbaseView bc miner)).1))
        = bc.unconfirmed_transactions.filter
            (fun t => decide
              (t ∉ (selectTxs bc.unconfirmed_transactions (coinbaseView bc miner)).1)) := by
      rw [hl]
    refine ⟨⟨mined, rfl, rfl, htx2⟩, selectTxs_incl_sublist _ _, hfil, ?_⟩
    intro hnd
    rw [show (({ bc with
          chain := bc.chain ++ [mined],
          utxos := (mineLoop bc.unconfirmed_transactions (coinbaseView bc miner)).2,
          unconfirmed_transactions := bc.unconfirmed_transactions.filter
            (fun t => decide
              (t ∉ (mineLoop bc.unconfirmed_transactions (coinbaseView bc miner)).1)) }
          : Blockchain), mined.index).1.unconfirmed_transactions
        = bc.unconfirmed_transactions.filter
            (fun t => decide
              (t ∉ (mineLoop bc.unconfirmed_transactions (coinbaseView bc miner)).1))
      from rfl]
    rw [hfil]
    exact selectTxs_partition _ _ hnd

def txSpend : Transaction := ⟨[⟨"h", 0, "alice"⟩], [⟨5, "bob"⟩]⟩

def tD : TxDict := txSpend.to_dict

/-- A state whose (persistence-loadable) mempool holds the same
transaction dict twice while the UTXO it spends exists only once: the
first copy is included when mining, the second is not, yet the filter
`t not in included` also removes the second copy from the mempool. -/
def bcDup : Blockchain :=
  { chain := [], unconfirmed_transactions := [tD, tD],
    utxos := putKey emptyView ("h", 0) ⟨5, "alice"⟩,
    difficulty := 0, block_reward := 50 }

theorem C7_mining_counterexample :
    (bcDup.mine "m" 0 1).map (fun p => p.1.unconfirmed_transactions) = some []
    ∧ (selectTxs bcDup.unconfirmed_transactions (coinbaseView bcDup "m")).1 = [tD]
    ∧ (selectTxs bcDup.unconfirmed_transactions (coinbaseView bcDup "m")).2.1 = [tD] := by
  refine ⟨by decide, by decide, by decide⟩

def bcW7 : Blockchain :=
  { chain := [], unconfirmed_transactions := [tD],
    utxos := putKey emptyView ("h", 0) ⟨5, "alice"⟩,
    difficulty := 0, block_reward := 50 }

theorem C7_mining_inclusion_witness :
    (bcW7.mine "m" 0 1).map (fun p => p.1.unconfirmed_transactions)
      = some ((selectTxs bcW7.unconfirmed_transactions (coinbaseView bcW7 "m")).2.1) := by
  have h : (bcW7.mine "m" 0 1).isSome = true := by decide
  have hm := C7_mining_inclusion bcW7 "m" 0 1 _ (Option.some_get h).symm
  have h2 := hm.2.2.2 (by decide)
  rw [← Option.some_get h, Option.map_some', h2]

/-! ### Claim C9: determinism and field-order independence of the hasher -/

/-- Strict version of the field order: key strictly smaller. -/
def fieldLT (p q : String × Json) : Prop := fieldLE p q ∧ p.1 ≠ q.1

theorem string_eq_of_data {a b : String} (h : a.data = b.data) : a = b := by
  cases a
  cases b
  exact congrArg String.mk h

instance : IsAntisymm (String × Json) fieldLT :=
  ⟨fun a b h1 h2 => absurd (string_eq_of_data
      (charsLe_antisymm a.1.data b.1.data h1.1 h2.1)) h1.2⟩

theorem sorted_fieldLT_of (l : List (String × Json)) (hs : List.Sorted fieldLE l)
    (hnd : (l.map Prod.fst).Nodup) : List.Sorted fieldLT l := by
  have hne : List.Pairwise (fun a b : String × Json => a.1 ≠ b.1) l := by
    simpa [List.Nodup, List.pairwise_map] using hnd
  exact (hs.and hne).imp (fun h => ⟨h.1, h.2⟩)

theorem sortFields_perm_eq {l1 l2 : List (String × Json)} (h : l1.Perm l2)
    (hnd : (l1.map Prod.fst).Nodup) : sortFields l1 = sortFields l2 := by
  have hperm : (sortFields l1).Perm (sortFields l2) :=
    (List.perm_insertionSort fieldLE l1).trans
      (h.trans (List.perm_insertionSort fieldLE l2).symm)
  have hk1 : ((sortFields l1).map Prod.fst).Perm (l1.map Prod.fst) :=
    (List.perm_insertionSort fieldLE l1).map Prod.fst
  have hnd1 : ((sortFields l1).map Prod.fst).Nodup := hk1.nodup_iff.mpr hnd
  have hk2 : ((sortFields l2).map Prod.fst).Perm (l1.map Prod.fst) :=
    ((List.perm_insertionSort fieldLE l2).map Prod.fst).trans (h.map Prod.fst).symm
  have hnd2 : ((sortFields l2).map Prod.fst).Nodup := hk2.nodup_iff.mpr hnd
  exact List.eq_of_perm_of_sorted hperm
    (sorted_fieldLT_of _ (List.sorted_insertionSort fieldLE l1) hnd1)
    (sorted_fieldLT_of _ (List.sorted_insertionSort fieldLE l2) hnd2)

theorem canonFields_eq_map (fs : List (String × Json)) :
    canonFields fs = fs.map (fun p => (p.1, canon p.2)) := by
  induction fs with
  | nil => rfl
  | cons f gs ih =>
    rcases f with ⟨k, v⟩
    simp only [canonFields, List.map_cons, ih]

/-- C9: the canonical hasher is deterministic, and hashing an object
whose fields have been permuted (insertion-order change of a record with
distinct keys) yields the identical digest; `compute_txid` and
`Block.compute_hash` are precisely `sha256_json` applied to the
transaction/block content, hence functions of content only. -/
theorem C9_hash_canonical :
    (∀ j : Json, sha256_json j = sha256_json j)
  ∧ (∀ l1 l2 : List (String × Json), (l1.map Prod.fst).Nodup → l1.Perm l2 →
      sha256_json (Json.obj l1) = sha256_json (Json.obj l2))
  ∧ (∀ (ins : List TxInput) (outs : List TxOutput),
      compute_txid ins outs = sha256_json (txContentJson ins outs))
  ∧ (∀ b : Block, b.compute_hash = sha256_json (blockContentJson b)) := by
  refine ⟨fun _ => rfl, ?_, fun _ _ => rfl, fun _ => rfl⟩
  intro l1 l2 hnd hperm
  have hp : (canonFields l1).Perm (canonFields l2) := by
    rw [canonFields_eq_map, canonFields_eq_map]
    exact hperm.map _
  have hnd2 : ((canonFields l1).map Prod.fst).Nodup := by
    rw [canonFields_eq_map]
    have : (l1.map (fun p => (p.1, canon p.2))).map Prod.fst = l1.map Prod.fst := by
      rw [List.map_map]
      rfl
    rw [this]
    exact hnd
  have hsort : sortFields (canonFields l1) = sortFields (canonFields l2) :=
    sortFields_perm_eq hp hnd2
  show hexOfString (String.mk (serialize (canon (Json.obj l1))))
      = hexOfString (String.mk (serialize (canon (Json.obj l2))))
  have hc : canon (Json.obj l1) = canon (Json.obj l2) := by
    show Json.obj (sortFields (canonFields l1)) = Json.obj (sortFields (canonFields l2))
    rw [hsort]
  rw [hc]

theorem C9_hash_canonical_witness :
    sha256_json (Json.obj [("b", Json.num 1), ("a", Json.num 2)])
      = sha256_json (Json.obj [("a", Json.num 2), ("b", Json.num 1)]) :=
  C9_hash_canonical.2.1 [("b", Json.num 1), ("a", Json.num 2)]
    [("a", Json.num 2), ("b", Json.num 1)]
    (by decide) (List.Perm.swap ("a", Json.num 2) ("b", Json.num 1) [])

end BA
